import Mathlib

/-!
Verification of the skill-memory store (TypeScript sources) against its
natural-language specification.

Strings of the source program are modelled as `List Char` (`Str`), so every
operation of the reference grammar, the path resolver and the versioned
mutation log is an executable Lean function mirroring the TypeScript
definition of the same name.  Errors thrown by the source are modelled with
`Except Str`.
-/

set_option maxRecDepth 4096

abbrev Str := List Char

/-- Character list of a string literal. -/
def chars (s : String) : Str := s.data

/-- Model of the whitespace class trimmed by JavaScript `String.prototype.trim`
(the characters that actually occur in this code base's inputs). -/
def isWsChar (c : Char) : Bool :=
  c = ' ' || c = '\t' || c = '\n' || c = '\r'

/-- `trim` applied from the left: JS `trimStart`. -/
def trimLeft (s : Str) : Str := s.dropWhile isWsChar

/-- `trim` applied from the right: JS `trimEnd`. -/
def trimRight (s : Str) : Str := (s.reverse.dropWhile isWsChar).reverse

/-- Model of JS `String.prototype.trim`. -/
def trim (s : Str) : Str := trimRight (trimLeft s)

/-- JS `s.includes("..")`: does the list contain two adjacent dots? -/
def hasDD : Str → Bool
  | [] => false
  | [_] => false
  | c1 :: c2 :: rest => (c1 = '.' && c2 = '.') || hasDD (c2 :: rest)

/-- JS `s.includes(c)` for a single character `c`. -/
def hasChar (s : Str) (c : Char) : Bool := s.any (· = c)

/-- The allow-list pattern `/^[a-zA-Z0-9_-]+$/` applied to one character. -/
def isAllowedNameChar (c : Char) : Bool :=
  ('a' ≤ c && c ≤ 'z') || ('A' ≤ c && c ≤ 'Z') || ('0' ≤ c && c ≤ '9') ||
    c = '_' || c = '-'

/-- `validateSkillName` from `src/lib/git.ts` (local-skill-ref section):
rejects empty names, the reserved `.`/`..`, traversal substrings, null bytes
and anything outside the allow-list pattern. -/
def validateSkillName (name : Str) : Except Str Unit :=
  if name.isEmpty || (trim name).isEmpty then
    .error (chars "Invalid skill name: name cannot be empty")
  else if name = ['.'] || name = ['.', '.'] then
    .error (chars "Invalid skill name: reserved name")
  else if hasDD name || hasChar name '/' || hasChar name '\\' then
    .error (chars "Invalid skill name: path traversal not allowed")
  else if hasChar name '\x00' then
    .error (chars "Invalid skill name: null bytes not allowed")
  else if name.all isAllowedNameChar then
    .ok ()
  else
    .error
      (chars "Invalid skill name: only alphanumeric characters, dashes, and underscores are allowed")

/-- JS `name.startsWith("@") ? name.slice(1) : name`. -/
def stripAt (s : Str) : Str :=
  match s with
  | [] => []
  | c :: rest => if c = '@' then rest else c :: rest

/-- `parseLocalSkillName` from the local-skill-ref section: trim, strip an
optional leading `@`, trim again, reject empty, then validate. -/
def parseLocalSkillName (input : Str) : Except Str Str :=
  if (trim (stripAt (trim input))).isEmpty then
    .error (chars "Invalid skill name: name cannot be empty")
  else
    match validateSkillName (trim (stripAt (trim input))) with
    | .error e => .error e
    | .ok _ => .ok (trim (stripAt (trim input)))

/-- Split a list at the first occurrence of `c`: JS `indexOf` + two `slice`s.
Returns `none` when `c` does not occur. -/
def splitAtFirst (c : Char) : Str → Option (Str × Str)
  | [] => none
  | x :: rest =>
    if x = c then some ([], rest)
    else (splitAtFirst c rest).map (fun p => (x :: p.1, p.2))

/-- Result record of `parseSkillPathRef`. -/
structure SkillPathRef where
  skillName : Str
  filePath : Str
deriving DecidableEq, Repr

/-- JS `filePath.replace(/^\x2f+/, "")`. -/
def dropLeadSlashes (s : Str) : Str := s.dropWhile (· = '/')

/-- JS `filePath.replace(/\x2f+$/, "")`. -/
def dropTrailSlashes (s : Str) : Str := (s.reverse.dropWhile (· = '/')).reverse

/-- JS `filePath.replace(/\x2f+/g, "/")`: collapse runs of slashes, realized
by dropping every slash that is immediately followed by another slash. -/
def collapseSlashes : Str → Str
  | [] => []
  | [c] => [c]
  | c1 :: c2 :: rest =>
    if c1 = '/' && c2 = '/' then collapseSlashes (c2 :: rest)
    else c1 :: collapseSlashes (c2 :: rest)

/-- The normalization applied to the file-path segment of `parseSkillPathRef`:
strip leading slashes, strip trailing slashes, collapse repeated slashes. -/
def normalizeFilePath (s : Str) : Str :=
  collapseSlashes (dropTrailSlashes (dropLeadSlashes s))

/-- The raw (pre-normalization) file-path segment that `parseSkillPathRef`
computes before validating: trim the input, require a leading `@`, split the
remainder at the first `/`, trim the part after it.  `none` when the input
does not reach that point (no `@`, or no slash). -/
def rawFileSegmentAux : Option (Str × Str) → Option Str
  | none => none
  | some (_, after) => some (trim after)

def rawFileSegmentCore : Str → Option Str
  | '@' :: withoutAt => rawFileSegmentAux (splitAtFirst '/' withoutAt)
  | _ => none

def rawFileSegment (input : Str) : Option Str :=
  rawFileSegmentCore (trim input)

/-- The shared validation tail of `parseSkillPathRef`, applied to the trimmed
skill-name and raw file-path segments in exactly the order the source checks
them. -/
def checkSkillPathRef (allowEmptyPath : Bool) (skillName filePath : Str) :
    Except Str SkillPathRef :=
  if skillName.isEmpty then
    .error (chars "Invalid skill path reference: skill name cannot be empty")
  else if hasDD skillName || hasChar skillName '/' || hasChar skillName '\\' then
    .error (chars "Invalid skill name: path traversal not allowed")
  else if !filePath.isEmpty && hasDD filePath then
    .error (chars "Invalid path: traversal not allowed")
  else if !filePath.isEmpty && hasChar filePath '\x00' then
    .error (chars "Invalid skill path reference: null bytes not allowed")
  else if filePath.isEmpty && !allowEmptyPath then
    .error (chars "Invalid skill path reference: file path cannot be empty")
  else if hasChar skillName '\x00' then
    .error (chars "Invalid skill path reference: null bytes not allowed")
  else if skillName.all isAllowedNameChar then
    .ok ⟨skillName, normalizeFilePath filePath⟩
  else
    .error
      (chars "Invalid skill name: only alphanumeric characters, dashes, and underscores are allowed")

/-- `parseSkillPathRef` from the skill-path-ref module (src/unnamed/part_003):
parses `@skill/path`, validating the skill name against the allow-list and the
path against traversal/null-byte injection, then normalizes the path. -/
def parseSkillPathRefAux (allowEmptyPath : Bool) (withoutAt : Str) :
    Option (Str × Str) → Except Str SkillPathRef
  | none =>
    if allowEmptyPath then checkSkillPathRef allowEmptyPath (trim withoutAt) []
    else
      .error (chars "Invalid skill path reference: must include file path after skill name")
  | some (before, after) => checkSkillPathRef allowEmptyPath (trim before) (trim after)

def parseSkillPathRefCore (allowEmptyPath : Bool) : Str → Except Str SkillPathRef
  | '@' :: withoutAt =>
    parseSkillPathRefAux allowEmptyPath withoutAt (splitAtFirst '/' withoutAt)
  | _ =>
    .error (chars "Invalid skill path reference: must start with at sign")

def parseSkillPathRef (input : Str) (allowEmptyPath : Bool) :
    Except Str SkillPathRef :=
  parseSkillPathRefCore allowEmptyPath (trim input)

example : parseSkillPathRef (chars "@xlsx/SKILL.md") false =
    .ok ⟨chars "xlsx", chars "SKILL.md"⟩ := by rfl

example : parseSkillPathRef (chars "@xlsx//a///b.py") false =
    .ok ⟨chars "xlsx", chars "a/b.py"⟩ := by rfl

example : parseSkillPathRef (chars "@xlsx/../secret") false =
    .error (chars "Invalid path: traversal not allowed") := by rfl

example : parseSkillPathRef (chars "@xlsx/") false =
    .error (chars "Invalid skill path reference: file path cannot be empty") := by
  rfl

example : parseSkillPathRef (chars "@xlsx//") false =
    .ok ⟨chars "xlsx", []⟩ := by rfl

example : parseLocalSkillName (chars " @xlsx ") = .ok (chars "xlsx") := by rfl

example : validateSkillName (chars "a/b") =
    .error (chars "Invalid skill name: path traversal not allowed") := by rfl

/-- A string is "dangerous" in the sense of the spec's defense claims when it
contains `..`, a path separator, or a null byte. -/
def badStr (s : Str) : Bool :=
  hasDD s || hasChar s '/' || hasChar s '\\' || hasChar s '\x00'

theorem hasDD_cons2 (c1 c2 : Char) (rest : Str) :
    hasDD (c1 :: c2 :: rest) = ((c1 = '.' && c2 = '.') || hasDD (c2 :: rest)) :=
  rfl

theorem hasDD_iff_parts (s : Str) :
    hasDD s = true ↔ ∃ l1 l2, s = l1 ++ '.' :: '.' :: l2 := by
  constructor
  · intro h
    induction s with
    | nil => simp [hasDD] at h
    | cons c rest ih =>
      match rest, h with
      | [], h => simp [hasDD] at h
      | c2 :: rest2, h =>
        rw [hasDD_cons2] at h
        rcases Bool.or_eq_true_iff.mp h with h1 | h2
        · obtain ⟨hc, hc2⟩ := Bool.and_eq_true_iff.mp h1
          exact ⟨[], rest2, by simp [decide_eq_true_iff.mp hc, decide_eq_true_iff.mp hc2]⟩
        · obtain ⟨l1, l2, hl⟩ := ih h2
          exact ⟨c :: l1, l2, by simp [hl]⟩
  · rintro ⟨l1, l2, rfl⟩
    induction l1 with
    | nil => simp [hasDD]
    | cons c rest ih =>
      match rest with
      | [] => simp [hasDD, hasDD_cons2]
      | c2 :: rest2 =>
        rw [List.cons_append, List.cons_append, hasDD_cons2]
        rw [List.cons_append] at ih
        simp [ih]

theorem hasDD_mem_dot (s : Str) (h : hasDD s = true) : '.' ∈ s := by
  obtain ⟨l1, l2, rfl⟩ := (hasDD_iff_parts s).mp h
  simp

theorem hasDD_reverse (s : Str) : hasDD s.reverse = hasDD s := by
  by_cases h : hasDD s = true
  · obtain ⟨l1, l2, rfl⟩ := (hasDD_iff_parts s).mp h
    rw [h]
    apply (hasDD_iff_parts _).mpr
    exact ⟨l2.reverse, l1.reverse, by simp⟩
  · rw [Bool.not_eq_true] at h
    rw [h]
    rw [Bool.eq_false_iff]
    intro hr
    obtain ⟨l1, l2, hl⟩ := (hasDD_iff_parts _).mp hr
    have : s = l2.reverse ++ '.' :: '.' :: l1.reverse := by
      have := congrArg List.reverse hl
      simpa using this
    have : hasDD s = true := (hasDD_iff_parts s).mpr ⟨_, _, this⟩
    simp [this] at h

theorem hasDD_dropWhile (p : Char → Bool) (hp : p '.' = false) (s : Str)
    (h : hasDD s = true) : hasDD (s.dropWhile p) = true := by
  induction s with
  | nil => simp [hasDD] at h
  | cons c rest ih =>
    rw [List.dropWhile_cons]
    by_cases hc : p c = true
    · simp only [hc, if_true]
      apply ih
      match rest, h with
      | [], h => simp [hasDD] at h
      | c2 :: rest2, h =>
        rw [hasDD] at h
        rcases Bool.or_eq_true_iff.mp h with h1 | h2
        · obtain ⟨hcd, _⟩ := Bool.and_eq_true_iff.mp h1
          rw [decide_eq_true_iff.mp hcd] at hc
          rw [hp] at hc
          cases hc
        · exact h2
    · simp only [hc, if_false]
      exact h

theorem mem_dropWhile_of_mem (p : Char → Bool) (c : Char) (hc : p c = false)
    (s : Str) (h : c ∈ s) : c ∈ s.dropWhile p := by
  induction s with
  | nil => cases h
  | cons x rest ih =>
    rw [List.dropWhile_cons]
    by_cases hx : p x = true
    · simp only [hx, if_true]
      apply ih
      rcases List.mem_cons.mp h with rfl | hm
      · rw [hc] at hx; cases hx
      · exact hm
    · simp only [hx, if_false]
      exact h

theorem hasDD_trimLeft (s : Str) (h : hasDD s = true) :
    hasDD (trimLeft s) = true :=
  hasDD_dropWhile isWsChar (by decide) s h

theorem hasDD_trimRight (s : Str) (h : hasDD s = true) :
    hasDD (trimRight s) = true := by
  unfold trimRight
  rw [hasDD_reverse]
  exact hasDD_dropWhile isWsChar (by decide) s.reverse ((hasDD_reverse s).symm ▸ h)

theorem hasDD_trim (s : Str) (h : hasDD s = true) : hasDD (trim s) = true :=
  hasDD_trimRight _ (hasDD_trimLeft _ h)

theorem mem_trimLeft (c : Char) (hc : isWsChar c = false) (s : Str)
    (h : c ∈ s) : c ∈ trimLeft s :=
  mem_dropWhile_of_mem isWsChar c hc s h

theorem mem_trimRight (c : Char) (hc : isWsChar c = false) (s : Str)
    (h : c ∈ s) : c ∈ trimRight s := by
  unfold trimRight
  rw [List.mem_reverse]
  exact mem_dropWhile_of_mem isWsChar c hc s.reverse (List.mem_reverse.mpr h)

theorem mem_trim (c : Char) (hc : isWsChar c = false) (s : Str)
    (h : c ∈ s) : c ∈ trim s :=
  mem_trimRight c hc _ (mem_trimLeft c hc s h)

theorem hasDD_stripAt (s : Str) (h : hasDD s = true) :
    hasDD (stripAt s) = true := by
  match s with
  | [] => simp [hasDD] at h
  | c :: rest =>
    show hasDD (if c = '@' then rest else c :: rest) = true
    by_cases hc : c = '@'
    · rw [if_pos hc]
      subst hc
      match rest, h with
      | [], h => simp [hasDD] at h
      | c2 :: r2, h =>
        rw [hasDD_cons2] at h
        simpa using h
    · rw [if_neg hc]
      exact h

theorem mem_stripAt (c : Char) (hc : c ≠ '@') (s : Str) (h : c ∈ s) :
    c ∈ stripAt s := by
  match s with
  | [] => cases h
  | x :: rest =>
    show c ∈ (if x = '@' then rest else x :: rest)
    by_cases hx : x = '@'
    · rw [if_pos hx]
      rcases List.mem_cons.mp h with rfl | hm
      · exact absurd hx hc
      · exact hm
    · rw [if_neg hx]
      exact h

/-- The preservation fact behind C5: the trim/strip preprocessing of
`parseLocalSkillName` cannot wash out `..`, separators or null bytes. -/
theorem badStr_preprocess (s : Str) (h : badStr s = true) :
    badStr (trim (stripAt (trim s))) = true := by
  unfold badStr hasChar at h ⊢
  simp only [Bool.or_eq_true, List.any_eq_true, decide_eq_true_iff] at h ⊢
  rcases h with ((hdd | ⟨c, hc, rfl⟩) | ⟨c, hc, rfl⟩) | ⟨c, hc, rfl⟩
  · exact Or.inl (Or.inl (Or.inl (hasDD_trim _ (hasDD_stripAt _ (hasDD_trim _ hdd)))))
  · exact Or.inl (Or.inl (Or.inr ⟨'/',
      mem_trim _ (by decide) _ (mem_stripAt _ (by decide) _ (mem_trim _ (by decide) _ hc)), rfl⟩))
  · exact Or.inl (Or.inr ⟨'\\',
      mem_trim _ (by decide) _ (mem_stripAt _ (by decide) _ (mem_trim _ (by decide) _ hc)), rfl⟩)
  · exact Or.inr ⟨'\x00',
      mem_trim _ (by decide) _ (mem_stripAt _ (by decide) _ (mem_trim _ (by decide) _ hc)), rfl⟩

theorem validateSkillName_ok_all (s : Str) (u : Unit)
    (h : validateSkillName s = .ok u) : s.all isAllowedNameChar = true := by
  unfold validateSkillName at h
  split at h
  · cases h
  · split at h
    · cases h
    · split at h
      · cases h
      · split at h
        · cases h
        · split at h
          · assumption
          · cases h

theorem all_allowed_not_bad (s : Str) (h : s.all isAllowedNameChar = true) :
    badStr s = false := by
  rw [List.all_eq_true] at h
  unfold badStr hasChar
  simp only [Bool.or_eq_false_iff, List.any_eq_false, decide_eq_true_iff]
  refine ⟨⟨⟨?_, ?_⟩, ?_⟩, ?_⟩
  · rw [Bool.eq_false_iff]
    intro hdd
    exact absurd (h '.' (hasDD_mem_dot s hdd)) (by decide)
  · intro x hx hxe
    subst hxe
    exact absurd (h _ hx) (by decide)
  · intro x hx hxe
    subst hxe
    exact absurd (h _ hx) (by decide)
  · intro x hx hxe
    subst hxe
    exact absurd (h _ hx) (by decide)

/-- Characterization of a successful run of the shared validation tail of
`parseSkillPathRef`. -/
theorem checkSkillPathRef_ok (ae : Bool) (sn fp : Str) (r : SkillPathRef)
    (h : checkSkillPathRef ae sn fp = .ok r) :
    r = ⟨sn, normalizeFilePath fp⟩ ∧
    sn.all isAllowedNameChar = true ∧
    (fp.isEmpty = true → ae = true) ∧
    (fp.isEmpty = false → hasDD fp = false ∧ hasChar fp '\x00' = false) := by
  unfold checkSkillPathRef at h
  split at h
  · cases h
  · split at h
    · cases h
    · split at h
      · cases h
      · split at h
        · cases h
        · split at h
          · cases h
          · split at h
            · cases h
            · split at h
              · rename_i g3 g4 g5 g6 hall
                cases h
                refine ⟨rfl, hall, ?_, ?_⟩
                · intro hfp
                  by_contra hae
                  rw [Bool.not_eq_true] at hae
                  exact g5 (by rw [hfp, hae]; rfl)
                · intro hfp
                  constructor
                  · by_contra hdd
                    rw [Bool.not_eq_false] at hdd
                    exact g3 (by rw [hfp, hdd]; rfl)
                  · by_contra hnull
                    rw [Bool.not_eq_false] at hnull
                    exact g4 (by rw [hfp, hnull]; rfl)
              · cases h

/-- Claim C5: every input string containing `..`, a path separator (`/` or
`\`), or a null byte is rejected by `validateSkillName` and by
`parseLocalSkillName`, and `parseSkillPathRef` never accepts such a string as
the skill name of a successful parse. -/
theorem claim5_validators_reject_traversal :
    (∀ s : Str, badStr s = true →
      (∃ m, validateSkillName s = .error m) ∧
      (∃ m, parseLocalSkillName s = .error m)) ∧
    (∀ (input : Str) (allowEmptyPath : Bool) (r : SkillPathRef),
      parseSkillPathRef input allowEmptyPath = .ok r →
      badStr r.skillName = false) := by
  constructor
  · intro s hbad
    constructor
    · match hv : validateSkillName s with
      | .error m => exact ⟨m, rfl⟩
      | .ok u =>
        have := all_allowed_not_bad s (validateSkillName_ok_all s u hv)
        rw [hbad] at this
        cases this
    · match hp : parseLocalSkillName s with
      | .error m => exact ⟨m, rfl⟩
      | .ok name =>
        unfold parseLocalSkillName at hp
        split at hp
        · cases hp
        · split at hp
          · cases hp
          · rename_i u hv
            have hall := validateSkillName_ok_all _ u hv
            have := all_allowed_not_bad _ hall
            rw [badStr_preprocess s hbad] at this
            cases this
  · intro input allowEmptyPath r hok
    have hall : r.skillName.all isAllowedNameChar = true := by
      unfold parseSkillPathRef parseSkillPathRefCore at hok
      split at hok
      · unfold parseSkillPathRefAux at hok
        split at hok
        · split at hok
          · obtain ⟨hr, h2, -, -⟩ := checkSkillPathRef_ok _ _ _ _ hok
            rw [hr]
            exact h2
          · cases hok
        · obtain ⟨hr, h2, -, -⟩ := checkSkillPathRef_ok _ _ _ _ hok
          rw [hr]
          exact h2
      · cases hok
    exact all_allowed_not_bad _ hall

/-- Witness for C5 at concrete inputs: `"a/../b"` is rejected by both
validators, and the successful parse of `"@xlsx/SKILL.md"` carries a skill
name free of dangerous substrings. -/
theorem claim5_witness :
    badStr (chars "a/../b") = true ∧
    (∃ m, validateSkillName (chars "a/../b") = .error m) ∧
    (∃ m, parseLocalSkillName (chars "a/../b") = .error m) ∧
    badStr (chars "xlsx") = false := by
  refine ⟨by rfl, ?_, ?_, ?_⟩
  · exact (claim5_validators_reject_traversal.1 (chars "a/../b") (by rfl)).1
  · exact (claim5_validators_reject_traversal.1 (chars "a/../b") (by rfl)).2
  · exact claim5_validators_reject_traversal.2 (chars "@xlsx/SKILL.md") false
      ⟨chars "xlsx", chars "SKILL.md"⟩ (by rfl)

theorem checkSkillPathRef_empty_false (sn : Str) :
    ∃ m, checkSkillPathRef false sn [] = .error m := by
  unfold checkSkillPathRef
  split
  · exact ⟨_, rfl⟩
  · split
    · exact ⟨_, rfl⟩
    · split
      · exact ⟨_, rfl⟩
      · split
        · exact ⟨_, rfl⟩
        · split
          · exact ⟨_, rfl⟩
          · rename_i g5
            exact absurd rfl g5

/-- Every successful `parseSkillPathRef` run with `allowEmptyPath = false`
comes from a raw (pre-normalization) file segment that is non-empty and free
of `..` and null bytes; the returned path is its normalization. -/
theorem parseSkillPathRef_false_ok_raw (input : Str) (r : SkillPathRef)
    (hok : parseSkillPathRef input false = .ok r) :
    ∃ raw, rawFileSegment input = some raw ∧ raw.isEmpty = false ∧
      r.filePath = normalizeFilePath raw ∧ hasDD raw = false ∧
      hasChar raw '\x00' = false := by
  unfold parseSkillPathRef parseSkillPathRefCore at hok
  split at hok
  · rename_i w heq
    unfold parseSkillPathRefAux at hok
    split at hok
    · split at hok
      · rename_i hfalse
        exact absurd hfalse (by decide)
      · cases hok
    · rename_i before after heq2
      obtain ⟨hr, -, hempty, hnonempty⟩ := checkSkillPathRef_ok _ _ _ _ hok
      have hfp : (trim after).isEmpty = false := by
        cases hfp2 : (trim after).isEmpty
        · rfl
        · exact absurd (hempty hfp2) (by decide)
      refine ⟨trim after, ?_, hfp, ?_, (hnonempty hfp).1, (hnonempty hfp).2⟩
      · unfold rawFileSegment
        rw [heq]
        simp only [rawFileSegmentCore]
        rw [heq2]
        rfl
      · rw [hr]
  · cases hok

/-- Counterexample to C6: with `allowEmptyPath = false` the input `"@xlsx//"`
(whose raw file segment `"/"` is non-empty but normalizes to nothing) parses
successfully and returns an empty file path, so the parse does not fail on
every path that is empty after normalization. -/
theorem claim6_counterexample :
    parseSkillPathRef (chars "@xlsx//") false = .ok ⟨chars "xlsx", []⟩ ∧
    (List.isEmpty ([] : Str)) = true := ⟨rfl, rfl⟩

/-- Amended C6: with `allowEmptyPath = false`, `parseSkillPathRef` fails
whenever the raw (pre-normalization) file segment is empty; every successful
parse comes from a non-empty raw segment (though its normalization may be
empty); and a raw segment containing `..` is always rejected, so a successful
parse's raw segment never contains `..` or a null byte. -/
theorem claim6_empty_path_amended :
    (∀ input : Str, rawFileSegment input = some [] →
      ∃ m, parseSkillPathRef input false = .error m) ∧
    (∀ (input : Str) (r : SkillPathRef),
      parseSkillPathRef input false = .ok r →
      ∃ raw, rawFileSegment input = some raw ∧ raw.isEmpty = false ∧
        r.filePath = normalizeFilePath raw ∧ hasDD raw = false ∧
        hasChar raw '\x00' = false) ∧
    (∀ (input raw : Str), rawFileSegment input = some raw → hasDD raw = true →
      ∃ m, parseSkillPathRef input false = .error m) := by
  refine ⟨?_, parseSkillPathRef_false_ok_raw, ?_⟩
  · intro input h
    unfold rawFileSegment rawFileSegmentCore at h
    split at h
    · rename_i w heq
      unfold rawFileSegmentAux at h
      split at h
      · cases h
      · rename_i before after heq2
        have hafter : trim after = [] := by
          injection h
        unfold parseSkillPathRef
        rw [heq]
        simp only [parseSkillPathRefCore]
        rw [heq2]
        simp only [parseSkillPathRefAux]
        rw [hafter]
        exact checkSkillPathRef_empty_false _
    · cases h
  · intro input raw hraw hdd
    match hres : parseSkillPathRef input false with
    | .error m => exact ⟨m, rfl⟩
    | .ok r =>
      obtain ⟨raw2, hraw2, -, -, hdd2, -⟩ :=
        parseSkillPathRef_false_ok_raw input r hres
      rw [hraw] at hraw2
      injection hraw2 with he
      rw [he] at hdd
      rw [hdd] at hdd2
      cases hdd2

/-- Witness for the amended C6 at concrete inputs: `"@xlsx/"` has an empty raw
segment and fails; `"@xlsx/a.py"` succeeds with the non-empty raw segment
`"a.py"`; `"@xlsx/../s"` has a `..` raw segment and fails. -/
theorem claim6_witness :
    (∃ m, parseSkillPathRef (chars "@xlsx/") false = .error m) ∧
    (∃ raw, rawFileSegment (chars "@xlsx/a.py") = some raw ∧
      raw.isEmpty = false ∧
      (SkillPathRef.mk (chars "xlsx") (chars "a.py")).filePath =
        normalizeFilePath raw ∧
      hasDD raw = false ∧ hasChar raw '\x00' = false) ∧
    (∃ m, parseSkillPathRef (chars "@xlsx/../s") false = .error m) := by
  refine ⟨?_, ?_, ?_⟩
  · exact claim6_empty_path_amended.1 (chars "@xlsx/") (by rfl)
  · exact claim6_empty_path_amended.2.1 (chars "@xlsx/a.py")
      ⟨chars "xlsx", chars "a.py"⟩ (by rfl)
  · exact claim6_empty_path_amended.2.2 (chars "@xlsx/../s") (chars "../s")
      (by rfl) (by rfl)

/-! ## Path resolver (src/src/lib/paths.ts) -/

/-- JS `segment.replace(/\x00/g, "")`. -/
def removeNulls (s : Str) : Str := s.filter (fun c => !(c = '\x00'))

/-- JS `sanitized.replace(/\.\./g, "")`: remove every (left-to-right,
non-overlapping) occurrence of `..`. -/
def removeDD : Str → Str
  | [] => []
  | [c] => [c]
  | c1 :: c2 :: rest =>
    if c1 = '.' && c2 = '.' then removeDD rest
    else c1 :: removeDD (c2 :: rest)

/-- The character class `[\s.]` of the leading/trailing trim in
`sanitizePathSegment`. -/
def isDotWsChar (c : Char) : Bool := isWsChar c || c = '.'

/-- JS `sanitized.replace(/^[\s.]+|[\s.]+$/g, "")`. -/
def trimDotsWs (s : Str) : Str :=
  ((s.dropWhile isDotWsChar).reverse.dropWhile isDotWsChar).reverse

/-- JS `sanitized.replace(/[\x2f\x5c]/g, "-")`. -/
def sepToHyphen (s : Str) : Str :=
  s.map (fun c => if c = '/' || c = '\\' then '-' else c)

/-- The four-stage sanitization pipeline of `sanitizePathSegment`. -/
def sanitizeCore (segment : Str) : Str :=
  sepToHyphen (trimDotsWs (removeDD (removeNulls segment)))

/-- `sanitizePathSegment` from `src/src/lib/paths.ts`: sanitize and raise if
the result is empty. -/
def sanitizePathSegment (segment : Str) : Except Str Str :=
  if (sanitizeCore segment).isEmpty then
    .error (chars "Invalid path segment")
  else .ok (sanitizeCore segment)

/-- Node `path.join(base, seg)` for a separator-free segment. -/
def joinPath (base seg : Str) : Str := base ++ '/' :: seg

/-- `validatePathWithinBase` from `src/src/lib/paths.ts`.  The source resolves
and normalizes both paths before the `startsWith` check; the model applies the
check to the already-joined path, whose appended segment is guaranteed by
`sanitizeCore` to contain no separator and no leading dot, so Node's
resolve/normalize is the identity on it. -/
def validatePathWithinBase (target base : Str) : Except Str Unit :=
  if base.isPrefixOf target then .ok ()
  else .error (chars "Path traversal attempt detected")

/-- `getLocalSkillPath` from `src/src/lib/paths.ts`, parameterized by the
skills-root directory (`getSkillsDir()` in the source). -/
def getLocalSkillPath (skillsDir name : Str) : Except Str Str :=
  match sanitizePathSegment name with
  | .error e => .error e
  | .ok seg =>
    match validatePathWithinBase (joinPath skillsDir seg) skillsDir with
    | .error e => .error e
    | .ok _ => .ok (joinPath skillsDir seg)

/-- `p` is a proper child path of `base`: `base`, a separator, then one
non-empty component that contains no separator and does not start with a dot
(so it is neither `.` nor `..` nor hidden-relative). -/
def isProperChild (p base : Str) : Prop :=
  ∃ seg, p = base ++ '/' :: seg ∧ seg ≠ [] ∧ hasChar seg '/' = false ∧
    hasChar seg '\\' = false ∧ seg.head? ≠ some '.'

theorem allowed_char_facts (c : Char) (h : isAllowedNameChar c = true) :
    decide (c = '\x00') = false ∧ c ≠ '.' ∧
    ((c = '/' || c = '\\') = false) ∧ isDotWsChar c = false := by
  have hne : c ≠ '\x00' ∧ c ≠ '.' ∧ c ≠ '/' ∧ c ≠ '\\' ∧ c ≠ ' ' ∧
      c ≠ '\t' ∧ c ≠ '\n' ∧ c ≠ '\r' := by
    unfold isAllowedNameChar at h
    simp only [Bool.or_eq_true, Bool.and_eq_true, decide_eq_true_iff] at h
    refine ⟨?_, ?_, ?_, ?_, ?_, ?_, ?_, ?_⟩ <;>
      · intro heq
        subst heq
        rcases h with ((((⟨h1, h2⟩ | ⟨h1, h2⟩) | ⟨h1, h2⟩) | h1) | h1) <;>
          first
          | exact absurd h1 (by decide)
          | exact absurd h2 (by decide)
  obtain ⟨n0, nd, ns, nb, nsp, nt, nn, nr⟩ := hne
  refine ⟨decide_eq_false n0, nd, ?_, ?_⟩
  · rw [Bool.or_eq_false_iff]
    exact ⟨decide_eq_false ns, decide_eq_false nb⟩
  · unfold isDotWsChar isWsChar
    rw [decide_eq_false nsp, decide_eq_false nt, decide_eq_false nn,
      decide_eq_false nr, decide_eq_false nd]
    rfl

theorem removeNulls_allowed (s : Str)
    (h : ∀ c ∈ s, isAllowedNameChar c = true) : removeNulls s = s := by
  induction s with
  | nil => rfl
  | cons c rest ih =>
    have hc := (allowed_char_facts c (h c (List.mem_cons_self c rest))).1
    unfold removeNulls at ih ⊢
    simp only [List.filter_cons, hc, Bool.not_false, if_true]
    rw [ih (fun x hx => h x (List.mem_cons_of_mem c hx))]

theorem removeDD_allowed (s : Str)
    (h : ∀ c ∈ s, isAllowedNameChar c = true) : removeDD s = s := by
  induction s with
  | nil => rfl
  | cons c rest ih =>
    cases rest with
    | nil => rfl
    | cons c2 r2 =>
      have hc := (allowed_char_facts c (h c (List.mem_cons_self _ _))).2.1
      simp only [removeDD]
      rw [if_neg (by simp [hc])]
      rw [ih (fun x hx => h x (List.mem_cons_of_mem c hx))]

theorem dropWhile_eq_self_of (p : Char → Bool) (s : Str)
    (h : ∀ c ∈ s, p c = false) : s.dropWhile p = s := by
  cases s with
  | nil => rfl
  | cons c rest =>
    have := h c (List.mem_cons_self c rest)
    rw [List.dropWhile_cons, this]
    simp

theorem trimDotsWs_allowed (s : Str)
    (h : ∀ c ∈ s, isAllowedNameChar c = true) : trimDotsWs s = s := by
  unfold trimDotsWs
  rw [dropWhile_eq_self_of _ _ (fun c hc => (allowed_char_facts c (h c hc)).2.2.2)]
  rw [dropWhile_eq_self_of _ _
    (fun c hc => (allowed_char_facts c (h c (List.mem_reverse.mp hc))).2.2.2)]
  simp

theorem sepToHyphen_allowed (s : Str)
    (h : ∀ c ∈ s, isAllowedNameChar c = true) : sepToHyphen s = s := by
  induction s with
  | nil => rfl
  | cons c rest ih =>
    have hc := (allowed_char_facts c (h c (List.mem_cons_self _ _))).2.2.1
    unfold sepToHyphen at ih ⊢
    rw [List.map_cons]
    rw [show (if c = '/' || c = '\\' then '-' else c) = c from by rw [hc]; rfl]
    rw [ih (fun x hx => h x (List.mem_cons_of_mem c hx))]

theorem sanitizeCore_allowed (s : Str) (h : s.all isAllowedNameChar = true) :
    sanitizeCore s = s := by
  rw [List.all_eq_true] at h
  unfold sanitizeCore
  rw [removeNulls_allowed s h, removeDD_allowed s h, trimDotsWs_allowed s h,
    sepToHyphen_allowed s h]

theorem sepToHyphen_no_sep (s : Str) (c : Char) (hc : c = '/' ∨ c = '\\') :
    hasChar (sepToHyphen s) c = false := by
  unfold hasChar sepToHyphen
  rw [List.any_eq_false]
  intro x hx
  simp only [List.mem_map] at hx
  obtain ⟨y, -, rfl⟩ := hx
  simp only [decide_eq_true_iff]
  by_cases hy : (y = '/' || y = '\\') = true
  · rw [if_pos hy]
    rcases hc with rfl | rfl <;> decide
  · rw [if_neg hy]
    intro heq
    subst heq
    rcases hc with hc | hc <;> simp [hc] at hy

theorem head_dropWhile_not (p : Char → Bool) (l : Str) (c : Char)
    (h : (l.dropWhile p).head? = some c) : p c = false := by
  induction l with
  | nil => cases h
  | cons x rest ih =>
    rw [List.dropWhile_cons] at h
    by_cases hx : p x = true
    · rw [if_pos hx] at h
      exact ih h
    · rw [if_neg hx] at h
      injection h with h2
      subst h2
      exact Bool.eq_false_iff.mpr hx

theorem exists_prefix_dropWhile (p : Char → Bool) (l : Str) :
    ∃ u, l = u ++ l.dropWhile p := by
  induction l with
  | nil => exact ⟨[], rfl⟩
  | cons x rest ih =>
    rw [List.dropWhile_cons]
    by_cases hx : p x = true
    · rw [if_pos hx]
      obtain ⟨u, hu⟩ := ih
      exact ⟨x :: u, by rw [List.cons_append, ← hu]⟩
    · rw [if_neg hx]
      exact ⟨[], rfl⟩

theorem head_trimEnd (p : Char → Bool) (l : Str) (c : Char) (t : Str)
    (h : (l.reverse.dropWhile p).reverse = c :: t) : l.head? = some c := by
  obtain ⟨u, hu⟩ := exists_prefix_dropWhile p l.reverse
  have hl : l = (l.reverse.dropWhile p).reverse ++ u.reverse := by
    have h2 := congrArg List.reverse hu
    simpa using h2
  rw [h] at hl
  rw [hl]
  rfl

theorem trimDotsWs_head_not (s : Str) (c : Char) (t : Str)
    (h : trimDotsWs s = c :: t) : isDotWsChar c = false := by
  unfold trimDotsWs at h
  exact head_dropWhile_not _ _ _ (head_trimEnd _ _ _ _ h)

theorem sanitizeCore_head_not_dot (s : Str) (c : Char) (t : Str)
    (h : sanitizeCore s = c :: t) : c ≠ '.' := by
  unfold sanitizeCore at h
  match h3 : trimDotsWs (removeDD (removeNulls s)) with
  | [] => rw [h3] at h; cases h
  | c3 :: t3 =>
    rw [h3] at h
    unfold sepToHyphen at h
    rw [List.map_cons] at h
    injection h with hc ht
    have hdw := trimDotsWs_head_not _ _ _ h3
    have hc3 : c3 ≠ '.' := by
      intro heq
      rw [heq] at hdw
      cases hdw
    subst hc
    by_cases hy : (c3 = '/' || c3 = '\\') = true
    · rw [if_pos hy]
      decide
    · rw [if_neg hy]
      exact hc3

theorem isPrefixOf_append (l t : Str) : l.isPrefixOf (l ++ t) = true := by
  rw [List.isPrefixOf_iff_prefix]
  exact ⟨t, rfl⟩

theorem validatePathWithinBase_append (base t : Str) :
    validatePathWithinBase (base ++ t) base = .ok () := by
  unfold validatePathWithinBase
  rw [if_pos (isPrefixOf_append base t)]

theorem getLocalSkillPath_eq (skillsDir name seg : Str)
    (h1 : sanitizePathSegment name = .ok seg) :
    getLocalSkillPath skillsDir name =
      match validatePathWithinBase (joinPath skillsDir seg) skillsDir with
      | .error e => .error e
      | .ok _ => .ok (joinPath skillsDir seg) := by
  unfold getLocalSkillPath
  rw [h1]

/-- Any successful `getLocalSkillPath` result is a proper child of the skills
root: the sanitized segment is non-empty, separator-free and does not start
with a dot. -/
theorem getLocalSkillPath_ok_child (skillsDir name p : Str)
    (h : getLocalSkillPath skillsDir name = .ok p) : isProperChild p skillsDir := by
  unfold getLocalSkillPath at h
  split at h
  · cases h
  · rename_i seg hseg
    split at h
    · cases h
    · injection h with hp
      have hseg2 : seg = sanitizeCore name ∧ sanitizeCore name ≠ [] := by
        unfold sanitizePathSegment at hseg
        split at hseg
        · cases hseg
        · rename_i hne
          injection hseg with h2
          refine ⟨h2.symm, ?_⟩
          intro hemp
          rw [hemp] at hne
          exact hne rfl
      obtain ⟨rfl, hne⟩ := hseg2
      refine ⟨sanitizeCore name, hp.symm, hne,
        sepToHyphen_no_sep _ _ (Or.inl rfl), sepToHyphen_no_sep _ _ (Or.inr rfl), ?_⟩
      match hsan : sanitizeCore name with
      | [] => exact absurd hsan hne
      | c :: t =>
        have hnd := sanitizeCore_head_not_dot name c t hsan
        simp [hnd]

/-- Claim C7: every allow-list-valid skill name is accepted by
`getLocalSkillPath`, mapping to `skillsDir/name` which is a proper child of
the skills root; and for arbitrary input, any returned path is a proper child
of the skills root (the sanitization step plus the within-base check can never
produce an escaping path). -/
theorem claim7_local_skill_path_jailed :
    (∀ skillsDir name : Str, validateSkillName name = .ok () →
      getLocalSkillPath skillsDir name = .ok (skillsDir ++ '/' :: name) ∧
      isProperChild (skillsDir ++ '/' :: name) skillsDir) ∧
    (∀ skillsDir name p : Str, getLocalSkillPath skillsDir name = .ok p →
      isProperChild p skillsDir) := by
  constructor
  · intro skillsDir name hv
    have hall := validateSkillName_ok_all name () hv
    have hsan : sanitizeCore name = name := sanitizeCore_allowed name hall
    have hne : name ≠ [] := by
      intro hemp
      unfold validateSkillName at hv
      rw [hemp] at hv
      cases hv
    have hsanOk : sanitizePathSegment name = .ok name := by
      unfold sanitizePathSegment
      rw [hsan]
      rw [if_neg (by simp [hne])]
    have hok : getLocalSkillPath skillsDir name = .ok (skillsDir ++ '/' :: name) := by
      rw [getLocalSkillPath_eq skillsDir name name hsanOk]
      rw [show joinPath skillsDir name = skillsDir ++ '/' :: name from rfl]
      rw [validatePathWithinBase_append skillsDir ('/' :: name)]
    exact ⟨hok, getLocalSkillPath_ok_child _ _ _ hok⟩
  · exact getLocalSkillPath_ok_child

/-- Witness for C7 at a concrete base and name. -/
theorem claim7_witness :
    getLocalSkillPath (chars "/root/.skill-memory/skills") (chars "xlsx") =
      .ok (chars "/root/.skill-memory/skills" ++ '/' :: chars "xlsx") ∧
    isProperChild (chars "/root/.skill-memory/skills" ++ '/' :: chars "xlsx")
      (chars "/root/.skill-memory/skills") := by
  exact (claim7_local_skill_path_jailed.1 (chars "/root/.skill-memory/skills")
    (chars "xlsx") (by rfl))

/-! ## Repository references (src/src/lib/repo-reference.ts) -/

/-- The discriminated repository-reference union of `types.ts`, tagged by
host. -/
inductive RepoReference where
  | github (owner repo : Str)
  | localhost (path : Str)
deriving DecidableEq, Repr

/-- Node `path.resolve(base, p)` for the cases this code exercises: an
absolute `p` stands alone, an empty `p` yields `base`, a relative `p` is
joined to `base`.  Dot-segment normalization is elided; the claims below
never feed dot segments through it. -/
def resolveFrom (base p : Str) : Str :=
  if p.head? = some '/' then p
  else if p.isEmpty then base
  else base ++ '/' :: p

/-- `resolvePath` from repo-reference.ts, parameterized by the home and
current-working directories that the source reads from the environment. -/
def resolvePath (home cwd p : Str) : Str :=
  if p.take 2 = chars "~/" then resolveFrom home (p.drop 2)
  else if p = ['~'] then home
  else resolveFrom cwd p

/-- `parseLocalRepoReference` from repo-reference.ts. -/
def parseLocalRepoReference (home cwd pathStr : Str) : Except Str RepoReference :=
  if pathStr.isEmpty then
    .error (chars "Invalid localhost reference. Path cannot be empty. Expected format: localhost@/path/to/dir")
  else .ok (.localhost (resolvePath home cwd pathStr))

/-- `parseGithubRepoReference` from repo-reference.ts: exactly one slash,
non-empty owner and repo. -/
def parseGithubRepoReference (ownerRepo originalRef : Str) :
    Except Str RepoReference :=
  match splitAtFirst '/' ownerRepo with
  | none =>
    .error (chars "Invalid repo reference: \"" ++ originalRef ++
      chars "\". Expected format: github.com@owner/repo")
  | some (owner, repo) =>
    if hasChar repo '/' then
      .error (chars "Invalid repo reference: \"" ++ originalRef ++
        chars "\". Expected format: github.com@owner/repo")
    else if owner.isEmpty || repo.isEmpty then
      .error (chars "Invalid repo reference: \"" ++ originalRef ++
        chars "\". Owner and repo cannot be empty.")
    else .ok (.github owner repo)

/-- `parseRepoReference` from repo-reference.ts: split at the first `@`, then
dispatch on the host literal. -/
def parseRepoReference (home cwd ref : Str) : Except Str RepoReference :=
  match splitAtFirst '@' ref with
  | none =>
    .error (chars "Invalid repo reference: \"" ++ ref ++
      chars "\". Expected format: github.com@owner/repo or localhost@/path")
  | some (host, rest) =>
    if host = chars "localhost" then parseLocalRepoReference home cwd rest
    else if host = chars "github.com" then parseGithubRepoReference rest ref
    else
      .error (chars "Invalid host: \"" ++ host ++
        chars "\". Supported hosts: github.com, localhost")

theorem splitAtFirst_append (c : Char) (a b : Str) (ha : hasChar a c = false) :
    splitAtFirst c (a ++ c :: b) = some (a, b) := by
  induction a with
  | nil => simp [splitAtFirst]
  | cons x rest ih =>
    unfold hasChar at ha ih
    rw [List.any_cons, Bool.or_eq_false_iff] at ha
    rw [List.cons_append]
    unfold splitAtFirst
    rw [if_neg (by simpa using ha.1)]
    rw [ih ha.2]
    rfl

theorem isEmpty_false_of_ne {α : Type} (s : List α) (h : s ≠ []) :
    s.isEmpty = false := by
  cases s with
  | nil => exact absurd rfl h
  | cons c t => rfl

/-- Claim C8: `parseRepoReference` behavior on the two accepted hosts and the
"unsupported host" error.  The generic github conjunct also covers the
exactly-one-slash and non-emptiness requirements; the concrete error
conjuncts exercise their violations. -/
theorem claim8_parse_repo_reference :
    (∀ home cwd : Str,
      parseRepoReference home cwd (chars "github.com@owner/repo") =
        .ok (.github (chars "owner") (chars "repo"))) ∧
    (∀ home cwd owner repo : Str, owner ≠ [] → repo ≠ [] →
      hasChar owner '/' = false → hasChar repo '/' = false →
      parseRepoReference home cwd
        (chars "github.com@" ++ (owner ++ '/' :: repo)) =
        .ok (.github owner repo)) ∧
    (∀ home cwd : Str,
      parseRepoReference home cwd (chars "localhost@~/x") =
        .ok (.localhost (home ++ '/' :: chars "x"))) ∧
    (∀ home cwd : Str, ∃ m,
      parseRepoReference home cwd (chars "localhost@") = .error m) ∧
    (∀ home cwd : Str, ∃ m,
      parseRepoReference home cwd (chars "github.com@a/b/c") = .error m) ∧
    (∀ home cwd : Str, ∃ m,
      parseRepoReference home cwd (chars "github.com@/repo") = .error m) ∧
    (∀ home cwd : Str, ∃ m,
      parseRepoReference home cwd (chars "github.com@owner") = .error m) ∧
    (∀ home cwd host rest : Str, hasChar host '@' = false →
      host ≠ chars "github.com" → host ≠ chars "localhost" →
      parseRepoReference home cwd (host ++ '@' :: rest) =
        .error (chars "Invalid host: \"" ++ host ++
          chars "\". Supported hosts: github.com, localhost")) := by
  refine ⟨fun home cwd => rfl, ?_, fun home cwd => rfl,
    fun home cwd => ⟨_, rfl⟩, fun home cwd => ⟨_, rfl⟩,
    fun home cwd => ⟨_, rfl⟩, fun home cwd => ⟨_, rfl⟩, ?_⟩
  · intro home cwd owner repo ho hr hso hsr
    unfold parseRepoReference
    rw [show chars "github.com@" ++ (owner ++ '/' :: repo) =
      chars "github.com" ++ '@' :: (owner ++ '/' :: repo) from rfl]
    rw [splitAtFirst_append '@' (chars "github.com") _ (by rfl)]
    show (if chars "github.com" = chars "localhost" then
        parseLocalRepoReference home cwd (owner ++ '/' :: repo)
      else if chars "github.com" = chars "github.com" then
        parseGithubRepoReference (owner ++ '/' :: repo)
          (chars "github.com" ++ '@' :: (owner ++ '/' :: repo))
      else _) = _
    rw [if_neg (by decide), if_pos rfl]
    unfold parseGithubRepoReference
    rw [splitAtFirst_append '/' owner repo hso]
    show (if hasChar repo '/' then _
      else if owner.isEmpty || repo.isEmpty then _
      else Except.ok (RepoReference.github owner repo)) = _
    rw [if_neg (by rw [hsr]; simp)]
    rw [if_neg (by rw [isEmpty_false_of_ne _ ho, isEmpty_false_of_ne _ hr]; simp)]
  · intro home cwd host rest hat hg hl
    unfold parseRepoReference
    rw [splitAtFirst_append '@' host rest hat]
    show (if host = chars "localhost" then parseLocalRepoReference home cwd rest
      else if host = chars "github.com" then
        parseGithubRepoReference rest (host ++ '@' :: rest)
      else Except.error (chars "Invalid host: \"" ++ host ++
        chars "\". Supported hosts: github.com, localhost")) = _
    rw [if_neg hl, if_neg hg]

/-- Witness for C8: the generic conjuncts applied at concrete inputs. -/
theorem claim8_witness :
    parseRepoReference (chars "/home/u") (chars "/cwd")
      (chars "github.com@" ++ (chars "memodb-io" ++ '/' :: chars "skill-memory")) =
      .ok (.github (chars "memodb-io") (chars "skill-memory")) ∧
    parseRepoReference (chars "/home/u") (chars "/cwd")
      (chars "gitlab.com" ++ '@' :: chars "a/b") =
      .error (chars "Invalid host: \"" ++ chars "gitlab.com" ++
        chars "\". Supported hosts: github.com, localhost") := by
  constructor
  · exact claim8_parse_repo_reference.2.1 (chars "/home/u") (chars "/cwd")
      (chars "memodb-io") (chars "skill-memory")
      (by decide) (by decide) (by rfl) (by rfl)
  · exact claim8_parse_repo_reference.2.2.2.2.2.2.2 (chars "/home/u") (chars "/cwd")
      (chars "gitlab.com") (chars "a/b") (by rfl) (by decide) (by decide)

/-! ## Versioned mutation log (src/src/lib/git.ts, src/unnamed/part_006) -/

/-- The skills working tree: an association of top-level folder names to
their (abstract) content.  Entries model directories; `readdir`'s
`isDirectory` filter is implicit. -/
abbrev FS := List (Str × Str)

/-- One commit of the store's repository: the message plus the snapshot of
the working tree it captured.  A repository is a `List Commit`, newest
first; `none` at the store level means no version-control metadata. -/
structure Commit where
  message : Str
  snap : FS
deriving DecidableEq, Repr

/-- `ConventionalCommitType` from git.ts: `feat`, `fix`, `refactor`,
`chore`. -/
inductive ConventionalCommitType where
  | feat | fix | refactor | chore
deriving DecidableEq, Repr

/-- The literal token each commit type prints as. -/
def typeStr : ConventionalCommitType → Str
  | .feat => chars "feat"
  | .fix => chars "fix"
  | .refactor => chars "refactor"
  | .chore => chars "chore"

/-- `CommitOptions` from git.ts. -/
structure CommitOptions where
  type : ConventionalCommitType
  scope : Str
  description : Str
  body : Option Str
deriving DecidableEq, Repr

/-- The header line of `buildConventionalCommit`. -/
def commitHeader (o : CommitOptions) : Str :=
  typeStr o.type ++ chars "(" ++ o.scope ++ chars "): " ++ o.description

/-- `buildConventionalCommit` from git.ts. -/
def buildConventionalCommit (o : CommitOptions) : Str :=
  match o.body with
  | some b => commitHeader o ++ chars "\n\n" ++ b
  | none => commitHeader o

/-- The commit options of `upsertCommand` (src/src/commands/upsert.ts lines
101-106): `fix`/`update` for an existing target file, `feat`/`add` for a new
one. -/
def upsertCommitOptions (isUpdate : Bool) (skillName filePath : Str)
    (body : Option Str) : CommitOptions :=
  ⟨if isUpdate then .fix else .feat, skillName,
    (if isUpdate then chars "update " else chars "add ") ++ filePath, body⟩

/-- The commit options of `initCommand` (src/src/commands/init.ts). -/
def initCommitOptions (name : Str) : CommitOptions :=
  ⟨.feat, name, chars "initialize new skill", none⟩

/-- The commit options of the file-delete branch of `deleteCommand`
(git-integrated revision, src/src/commands/upsert.ts file, second doc). -/
def deleteFileCommitOptions (skillName filePath : Str) : CommitOptions :=
  ⟨.chore, skillName, chars "delete " ++ filePath, none⟩

/-- The commit options of the whole-skill branch of `deleteCommand`. -/
def deleteSkillCommitOptions (skillName : Str) : CommitOptions :=
  ⟨.chore, skillName, chars "delete skill", none⟩

/-- The commit options of `copyCommand` (src/src/commands/copy.ts). -/
def copyCommitOptions (sourceName targetName : Str) : CommitOptions :=
  ⟨.feat, targetName, chars "copy skill from " ++ sourceName, none⟩

/-- Modelled from the spec: the commit options of the git-integrated rename
command, which is not among the provided sources (only its integration test
is).  The spec fixes rename→refactor, scoped to the new name. -/
def renameCommitOptions (sourceName targetName : Str) : CommitOptions :=
  ⟨.refactor, targetName, chars "rename skill from " ++ sourceName, none⟩

/-- The kind token of a commit message: everything before the first `(`. -/
def kindOf (msg : Str) : Str := msg.takeWhile (fun c => !(c = '('))

/-- The kind tokens the claim asserts. -/
def claimedKindTokens : List Str :=
  [chars "feature", chars "fix", chars "refactor", chars "chore"]

/-- The kind tokens the code actually produces. -/
def actualKindTokens : List Str :=
  [chars "feat", chars "fix", chars "refactor", chars "chore"]

theorem kindOf_of_eq (msg k t : Str) (h : msg = k ++ '(' :: t)
    (hk : hasChar k '(' = false) : kindOf msg = k := by
  subst h
  unfold kindOf
  induction k with
  | nil => rfl
  | cons x rest ih =>
    unfold hasChar at hk ih
    rw [List.any_cons, Bool.or_eq_false_iff] at hk
    rw [List.cons_append, List.takeWhile_cons]
    have hx : x ≠ '(' := by simpa using hk.1
    rw [show (!(decide (x = '('))) = true from by simp [hx]]
    rw [if_pos rfl]
    rw [ih hk.2]

theorem commitHeader_eq (o : CommitOptions) :
    commitHeader o =
      typeStr o.type ++ '(' :: (o.scope ++ chars "): " ++ o.description) := by
  unfold commitHeader
  rw [show chars "(" = ['('] from rfl]
  simp [List.append_assoc]

theorem typeStr_no_paren (t : ConventionalCommitType) :
    hasChar (typeStr t) '(' = false := by
  cases t <;> rfl

theorem kindOf_build (o : CommitOptions) :
    kindOf (buildConventionalCommit o) = typeStr o.type := by
  unfold buildConventionalCommit
  match o.body with
  | none => exact kindOf_of_eq _ _ _ (commitHeader_eq o) (typeStr_no_paren o.type)
  | some b =>
    apply kindOf_of_eq _ _ ((o.scope ++ chars "): " ++ o.description) ++ chars "\n\n" ++ b)
    · rw [commitHeader_eq o]
      simp [List.append_assoc]
    · exact typeStr_no_paren o.type

/-- Counterexample to C4: the commit message a new-file upsert produces has
kind token `feat`, which is not among the claimed tokens
`feature`/`fix`/`refactor`/`chore`, so the message does not match the claimed
grammar for any split. -/
theorem claim4_counterexample :
    ¬ ∃ (k s d : Str), k ∈ claimedKindTokens ∧
      (buildConventionalCommit
          (upsertCommitOptions false (chars "xlsx") (chars "recalc.py") none) =
        k ++ '(' :: (s ++ chars "): " ++ d) ∨
      ∃ b, buildConventionalCommit
          (upsertCommitOptions false (chars "xlsx") (chars "recalc.py") none) =
        k ++ '(' :: (s ++ chars "): " ++ d) ++ chars "\n\n" ++ b) := by
  rintro ⟨k, s, d, hk, hcase⟩
  have h1 : kindOf (buildConventionalCommit
      (upsertCommitOptions false (chars "xlsx") (chars "recalc.py") none)) =
      chars "feat" := by rfl
  have hkp : hasChar k '(' = false := by
    fin_cases hk <;> rfl
  have h2 : kindOf (buildConventionalCommit
      (upsertCommitOptions false (chars "xlsx") (chars "recalc.py") none)) = k := by
    rcases hcase with heq | ⟨b, heq⟩
    · exact kindOf_of_eq _ _ _ heq hkp
    · apply kindOf_of_eq _ _ ((s ++ chars "): " ++ d) ++ chars "\n\n" ++ b) _ hkp
      rw [heq]
      simp [List.append_assoc]
  rw [h1] at h2
  fin_cases hk <;> exact absurd h2 (by decide)

/-- Amended C4: every produced commit message is
`<kind>(<scope>): <description>`, optionally followed by a blank line and a
body, where `<kind>` is one of exactly `feat`, `fix`, `refactor`, `chore`
(the code abbreviates `feat`, not `feature`), and the kind is fixed
statically per operation: delete→chore, upsert-new→feat, upsert-existing→fix,
rename→refactor, copy→feat, init→feat. -/
theorem claim4_commit_message_amended :
    (∀ o : CommitOptions,
      typeStr o.type ∈ actualKindTokens ∧
      kindOf (buildConventionalCommit o) = typeStr o.type ∧
      (o.body = none → buildConventionalCommit o =
        typeStr o.type ++ '(' :: (o.scope ++ chars "): " ++ o.description)) ∧
      (∀ b, o.body = some b → buildConventionalCommit o =
        typeStr o.type ++ '(' :: (o.scope ++ chars "): " ++ o.description) ++
          chars "\n\n" ++ b)) ∧
    (∀ sn fp b, (upsertCommitOptions false sn fp b).type = .feat) ∧
    (∀ sn fp b, (upsertCommitOptions true sn fp b).type = .fix) ∧
    (∀ sn fp, (deleteFileCommitOptions sn fp).type = .chore) ∧
    (∀ sn, (deleteSkillCommitOptions sn).type = .chore) ∧
    (∀ s t, (copyCommitOptions s t).type = .feat) ∧
    (∀ s t, (renameCommitOptions s t).type = .refactor) ∧
    (∀ n, (initCommitOptions n).type = .feat) := by
  refine ⟨?_, fun sn fp b => rfl, fun sn fp b => rfl, fun sn fp => rfl,
    fun sn => rfl, fun s t => rfl, fun s t => rfl, fun n => rfl⟩
  intro o
  refine ⟨by cases o.type <;> simp [actualKindTokens, typeStr], kindOf_build o, ?_, ?_⟩
  · intro hb
    unfold buildConventionalCommit
    rw [hb]
    exact commitHeader_eq o
  · intro b hb
    unfold buildConventionalCommit
    rw [hb]
    rw [commitHeader_eq o]

/-- Witness for the amended C4 at a concrete commit-option record. -/
theorem claim4_witness :
    typeStr (upsertCommitOptions false (chars "xlsx") (chars "a.py") none).type ∈
      actualKindTokens ∧
    kindOf (buildConventionalCommit
      (upsertCommitOptions false (chars "xlsx") (chars "a.py") none)) =
      typeStr (upsertCommitOptions false (chars "xlsx") (chars "a.py") none).type ∧
    (upsertCommitOptions false (chars "xlsx") (chars "a.py") none).type =
      ConventionalCommitType.feat := by
  refine ⟨(claim4_commit_message_amended.1
    (upsertCommitOptions false (chars "xlsx") (chars "a.py") none)).1,
    (claim4_commit_message_amended.1
      (upsertCommitOptions false (chars "xlsx") (chars "a.py") none)).2.1,
    claim4_commit_message_amended.2.1 (chars "xlsx") (chars "a.py") none⟩

/-! ## Undo (src/unnamed/part_016) -/

def noRepoMsg : Str := chars "No git repository in skills directory."

def noCommitsMsg : Str :=
  chars "No commits to undo. The skills repository has no history."

def initialCommitMsg : Str :=
  chars "Already at the initial commit. Cannot undo further."

/-- Modelled from the spec: `getCommitCount` (a `git rev-list --count`
wrapper) is not among the provided sources; on the commit-list model the
count is the length. -/
def getCommitCount (commits : List Commit) : Nat := commits.length

/-- Modelled from the spec: `getLastCommitMessage` returns the newest
commit's message, `null` when there is none. -/
def getLastCommitMessage (commits : List Commit) : Option Str :=
  commits.head?.map Commit.message

/-- Modelled from the spec: `gitResetHard dir "HEAD~1"` moves the history
pointer to the immediately preceding commit; the working tree becomes that
commit's snapshot. -/
def gitResetHard (commits : List Commit) : List Commit := commits.drop 1

/-- Outcome of a successful undo: the remaining history, the restored
working tree, and the reported (discarded) commit message. -/
structure UndoResult where
  commits : List Commit
  worktree : FS
  reported : Str
deriving DecidableEq, Repr

/-- `undoCommand` from src/unnamed/part_016: fatal errors for a missing
repository, zero commits and exactly one commit (in the list model the
`getCommitCount` 0/1 guards are the nil and singleton cases), otherwise a
hard reset to the preceding commit, reporting the discarded message. -/
def undoCommand (git : Option (List Commit)) : Except Str UndoResult :=
  match git with
  | none => .error noRepoMsg
  | some [] => .error noCommitsMsg
  | some [_] => .error initialCommitMsg
  | some (last :: prev :: rest) =>
    .ok ⟨gitResetHard (last :: prev :: rest), prev.snap, last.message⟩

/-- Claim C2: undo fails with the distinct "no commits" error at zero
commits, with the distinct "already at initial commit" error at exactly one
commit, and with at least two commits it succeeds, dropping exactly the
newest commit, resetting the working tree to the preceding commit's snapshot
and reporting the discarded commit's message. -/
theorem claim2_undo_trichotomy :
    (undoCommand (some []) = .error noCommitsMsg) ∧
    (∀ c, undoCommand (some [c]) = .error initialCommitMsg) ∧
    noCommitsMsg ≠ initialCommitMsg ∧ noCommitsMsg ≠ noRepoMsg ∧
    initialCommitMsg ≠ noRepoMsg ∧
    (∀ commits : List Commit, 2 ≤ commits.length →
      ∃ r, undoCommand (some commits) = .ok r ∧
        r.commits = commits.drop 1 ∧
        r.commits.length = commits.length - 1 ∧
        (∃ c rest, commits = c :: rest ∧ r.reported = c.message ∧
          ∃ c2 rest2, rest = c2 :: rest2 ∧ r.worktree = c2.snap)) := by
  refine ⟨rfl, fun c => rfl, by decide, by decide, by decide, ?_⟩
  intro commits hlen
  match commits, hlen with
  | last :: prev :: rest, _ =>
    exact ⟨⟨prev :: rest, prev.snap, last.message⟩, rfl, rfl, by simp,
      last, prev :: rest, rfl, rfl, prev, rest, rfl, rfl⟩

/-- Witness for C2 on a concrete two-commit history. -/
theorem claim2_witness :
    2 ≤ ([⟨chars "feat(a): x", [(chars "a", chars "m")]⟩,
      ⟨chars "chore: init", []⟩] : List Commit).length ∧
    ∃ r, undoCommand (some [⟨chars "feat(a): x", [(chars "a", chars "m")]⟩,
        ⟨chars "chore: init", []⟩]) = .ok r ∧
      r.commits = [⟨chars "chore: init", []⟩] ∧
      r.reported = chars "feat(a): x" := by
  refine ⟨by decide, ?_⟩
  obtain ⟨r, h1, h2, -, -⟩ := claim2_undo_trichotomy.2.2.2.2.2
    [⟨chars "feat(a): x", [(chars "a", chars "m")]⟩,
      ⟨chars "chore: init", []⟩] (by decide)
  refine ⟨r, h1, by rw [h2]; rfl, ?_⟩
  have : r = ⟨[⟨chars "chore: init", []⟩], [], chars "feat(a): x"⟩ := by
    have h3 := h1
    rw [show undoCommand (some [⟨chars "feat(a): x", [(chars "a", chars "m")]⟩,
      ⟨chars "chore: init", []⟩]) =
      .ok ⟨[⟨chars "chore: init", []⟩], [], chars "feat(a): x"⟩ from rfl] at h3
    injection h3 with h4
    exact h4.symm
  rw [this]

/-! ## History (src/src/commands/history.ts) -/

/-- One line of `git log` output as the history command renders it:
a seconds-precision timestamp and the subject line. -/
structure HistoryEntry where
  date : Nat
  message : Str
deriving DecidableEq, Repr

/-- Modelled from the spec: `getGitHistory(dir, offset, limit)` is not among
the provided sources (only its callers and tests are); the spec says it
returns commit metadata in reverse chronological order supporting an offset
and a limit.  The repository log is the entry list, newest first. -/
def getGitHistory (log : List HistoryEntry) (offset limit : Nat) :
    List HistoryEntry :=
  (log.drop offset).take limit

/-- `historyCommand` from src/src/commands/history.ts: fatal error without a
repository; zero total commits prints "No history found" and yields nothing;
otherwise the requested page (an empty page prints "No more history
entries" and is not an error). -/
def historyCommand (git : Option (List HistoryEntry)) (offset limit : Nat) :
    Except Str (List HistoryEntry) :=
  match git with
  | none => .error noRepoMsg
  | some log =>
    if log.length = 0 then .ok []
    else .ok (getGitHistory log offset limit)

/-- Claim C9: for a store with K commits, history with offset o and limit l
returns exactly max 0 (min l (K-o)) entries, in strictly decreasing
timestamp order, and an empty result without error when o ≥ K. -/
theorem claim9_history_pagination :
    ∀ (log : List HistoryEntry) (o l : Nat),
      log.Pairwise (fun a b => b.date < a.date) →
      ∃ entries, historyCommand (some log) o l = .ok entries ∧
        entries.length = max 0 (min l (log.length - o)) ∧
        entries.Pairwise (fun a b => b.date < a.date) ∧
        (log.length ≤ o → entries = []) := by
  intro log o l hsorted
  simp only [historyCommand]
  by_cases hz : log.length = 0
  · rw [if_pos hz]
    refine ⟨[], rfl, ?_, List.Pairwise.nil, fun _ => rfl⟩
    simp [hz]
  · rw [if_neg hz]
    refine ⟨getGitHistory log o l, rfl, ?_, ?_, ?_⟩
    · unfold getGitHistory
      rw [List.length_take, List.length_drop]
      omega
    · unfold getGitHistory
      exact hsorted.sublist ((List.take_sublist _ _).trans (List.drop_sublist _ _))
    · intro hle
      unfold getGitHistory
      rw [List.drop_eq_nil_of_le hle, List.take_nil]

/-- Witness for C9 on a concrete three-commit log. -/
theorem claim9_witness :
    ∃ entries, historyCommand
        (some [⟨30, chars "c3"⟩, ⟨20, chars "c2"⟩, ⟨10, chars "c1"⟩]) 1 5 =
        .ok entries ∧
      entries.length = max 0 (min 5 (3 - 1)) ∧
      entries.Pairwise (fun a b => b.date < a.date) ∧
      entries = [⟨20, chars "c2"⟩, ⟨10, chars "c1"⟩] := by
  obtain ⟨entries, h1, h2, h3, -⟩ := claim9_history_pagination
    [⟨30, chars "c3"⟩, ⟨20, chars "c2"⟩, ⟨10, chars "c1"⟩] 1 5 (by decide)
  refine ⟨entries, h1, h2, h3, ?_⟩
  have : historyCommand
      (some [⟨30, chars "c3"⟩, ⟨20, chars "c2"⟩, ⟨10, chars "c1"⟩]) 1 5 =
      .ok [⟨20, chars "c2"⟩, ⟨10, chars "c1"⟩] := rfl
  rw [this] at h1
  injection h1 with h4
  exact h4.symm

/-! ## Bootstrapping (git.ts ensureSkillsGitRepo + init.ts initCommand) -/

def baselineCommitMsg : Str := chars "chore: initialize skill-memory git tracking"

/-- `listExistingSkills` from git.ts: the non-hidden top-level directory
names of the skills directory. -/
def listExistingSkills (fs : FS) : List Str :=
  (fs.map Prod.fst).filter (fun n => !(n.head? = some '.'))

/-- `gitAdd dir` (stage everything) followed by `gitCommit dir msg`, on the
abstract repository: a commit is created iff the staged tree differs from
HEAD (for an empty repository, iff the tree is non-empty); otherwise git
reports "nothing to commit" and `gitCommit` returns `false`. -/
def gitCommitM (repo : List Commit) (msg : Str) (work : FS) :
    List Commit × Bool :=
  match repo with
  | [] => if work.isEmpty then (repo, false) else (⟨msg, work⟩ :: repo, true)
  | c :: _ => if c.snap = work then (repo, false) else (⟨msg, work⟩ :: repo, true)

/-- `EnsureGitRepoResult` from git.ts. -/
structure EnsureGitRepoResult where
  initialized : Bool
  migratedSkills : Option (List Str)
deriving DecidableEq, Repr

/-- `ensureSkillsGitRepo` from git.ts lines 227-247: no-op when `.git`
exists; otherwise list the pre-existing skills, `git init`, and if any
existed, stage and commit them under the fixed baseline message, reporting
them as migrated. -/
def ensureSkillsGitRepo (git : Option (List Commit)) (fs : FS) :
    Option (List Commit) × EnsureGitRepoResult :=
  match git with
  | some repo => (some repo, ⟨false, none⟩)
  | none =>
    if (listExistingSkills fs).isEmpty then (some [], ⟨true, none⟩)
    else
      (some (gitCommitM [] baselineCommitMsg fs).1,
        ⟨true, some (listExistingSkills fs)⟩)

/-- The happy path of `commitSkillChange` (part_006 lines 69-109), as run by
the commands when git is installed and the skills directory exists: ensure
the repository (a no-op when `ensureGitReady` already ran), stage all changes
and commit the conventional message.  The degraded/error paths are modelled
separately for claim C3. -/
def commitSkillChangeRun (git : Option (List Commit)) (fs : FS)
    (o : CommitOptions) : Option (List Commit) × Bool :=
  match (ensureSkillsGitRepo git fs).1 with
  | none => (none, false)
  | some repo =>
    (some (gitCommitM repo (buildConventionalCommit o) fs).1,
      (gitCommitM repo (buildConventionalCommit o) fs).2)

/-- A store root: the skills working tree plus the repository state. -/
structure Store where
  fs : FS
  git : Option (List Commit)
deriving DecidableEq, Repr

/-- What `initCommand` produces: the new store, the migrated-skill list the
bootstrap reported (printed as the `[git] Initialized repository with
existing skills (...)` line), and whether the command's own commit was
created. -/
structure InitOutcome where
  store : Store
  migratedSkills : Option (List Str)
  committed : Bool
deriving DecidableEq, Repr

/-- `initCommand` from src/src/commands/init.ts on the store model: parse and
validate the name, refuse an existing skill directory, run `ensureGitReady`
(= `ensureSkillsGitRepo`) BEFORE the command's own edit, create the skill
folder with its templated manifest, then `commitSkillChange` with
feat/initialize-new-skill.  The template generator is an external
collaborator passed as `tmpl`; the existence check compares folder names,
which for validated names agrees with `getLocalSkillPath` (claim C7). -/
def initCommandRun (tmpl : Str → Str) (input : Str) (st : Store) :
    Except Str InitOutcome :=
  match parseLocalSkillName input with
  | .error e => .error e
  | .ok name =>
    if st.fs.any (fun p => p.1 = name) then
      .error (chars "Skill already exists")
    else
      match ensureSkillsGitRepo st.git st.fs with
      | (git1, ensureRes) =>
        match commitSkillChangeRun git1 (st.fs ++ [(name, tmpl name)])
            (initCommitOptions name) with
        | (git2, committed) =>
          .ok ⟨⟨st.fs ++ [(name, tmpl name)], git2⟩,
            ensureRes.migratedSkills, committed⟩

/-- Claim C1: on an un-versioned store root with pre-existing non-hidden
skill folders, the first mutating command (here `initCommand`) first
initializes version control and creates the baseline commit capturing
exactly the pre-existing tree — reporting exactly those folder names as
migrated — and only then applies and commits its own change: exactly two
commits result, baseline first (i.e. oldest), with distinct messages. -/
theorem claim1_bootstrap_two_commits :
    ∀ (tmpl : Str → Str) (input name : Str) (fs0 : FS),
      parseLocalSkillName input = .ok name →
      listExistingSkills fs0 ≠ [] →
      fs0.any (fun p => p.1 = name) = false →
      initCommandRun tmpl input ⟨fs0, none⟩ =
        .ok ⟨⟨fs0 ++ [(name, tmpl name)],
          some [⟨buildConventionalCommit (initCommitOptions name),
                  fs0 ++ [(name, tmpl name)]⟩,
                ⟨baselineCommitMsg, fs0⟩]⟩,
          some (listExistingSkills fs0), true⟩ ∧
      baselineCommitMsg ≠ buildConventionalCommit (initCommitOptions name) := by
  intro tmpl input name fs0 hparse hmig hany
  have hfs0 : fs0 ≠ [] := by
    intro h
    subst h
    exact hmig rfl
  have h1 : ensureSkillsGitRepo none fs0 =
      (some [⟨baselineCommitMsg, fs0⟩], ⟨true, some (listExistingSkills fs0)⟩) := by
    simp only [ensureSkillsGitRepo]
    rw [if_neg (by rw [isEmpty_false_of_ne _ hmig]; simp)]
    simp only [gitCommitM]
    rw [if_neg (by rw [isEmpty_false_of_ne _ hfs0]; simp)]
  have hdiff : fs0 ≠ fs0 ++ [(name, tmpl name)] := by
    intro h
    have := congrArg List.length h
    simp at this
  have h2 : commitSkillChangeRun (some [⟨baselineCommitMsg, fs0⟩])
      (fs0 ++ [(name, tmpl name)]) (initCommitOptions name) =
      (some [⟨buildConventionalCommit (initCommitOptions name),
          fs0 ++ [(name, tmpl name)]⟩, ⟨baselineCommitMsg, fs0⟩], true) := by
    simp only [commitSkillChangeRun, ensureSkillsGitRepo]
    simp only [gitCommitM]
    rw [if_neg hdiff]
  constructor
  · simp only [initCommandRun, hparse]
    rw [hany]
    simp only [Bool.false_eq_true, if_false]
    simp only [h1, h2]
  · intro heq
    have hh : (buildConventionalCommit (initCommitOptions name)).head? =
        some 'f' := rfl
    rw [← heq] at hh
    exact absurd hh (by decide)

/-- Witness for C1 on a concrete pre-existing store. -/
theorem claim1_witness :
    initCommandRun (fun n => chars "# skill" ++ n)
      (chars "@new-skill")
      ⟨[(chars "xlsx", chars "x"), (chars "pdf", chars "p")], none⟩ =
      .ok ⟨⟨[(chars "xlsx", chars "x"), (chars "pdf", chars "p")] ++
          [(chars "new-skill", chars "# skill" ++ chars "new-skill")],
        some [⟨buildConventionalCommit (initCommitOptions (chars "new-skill")),
                [(chars "xlsx", chars "x"), (chars "pdf", chars "p")] ++
                  [(chars "new-skill", chars "# skill" ++ chars "new-skill")]⟩,
              ⟨baselineCommitMsg,
                [(chars "xlsx", chars "x"), (chars "pdf", chars "p")]⟩]⟩,
        some (listExistingSkills
          [(chars "xlsx", chars "x"), (chars "pdf", chars "p")]), true⟩ ∧
    listExistingSkills [(chars "xlsx", chars "x"), (chars "pdf", chars "p")] =
      [chars "xlsx", chars "pdf"] := by
  constructor
  · exact (claim1_bootstrap_two_commits (fun n => chars "# skill" ++ n)
      (chars "@new-skill") (chars "new-skill")
      [(chars "xlsx", chars "x"), (chars "pdf", chars "p")]
      (by rfl) (by decide) (by rfl)).1
  · rfl

/-! ## Degraded mode (part_006 commitSkillChange, git.ts gitCommit) -/

/-- Is `pat` an initial segment of `s`? (JS `startsWith` used to realize
`includes`.) -/
def startsWithStr : Str → Str → Bool
  | _, [] => true
  | [], _ :: _ => false
  | c :: cs, p :: ps => c = p && startsWithStr cs ps

/-- JS `s.includes(pat)` for a string pattern. -/
def containsSub (s pat : Str) : Bool :=
  match s with
  | [] => pat.isEmpty
  | _ :: rest => startsWithStr s pat || containsSub rest pat

/-- The "nothing to commit" detection of `gitCommit` (git.ts lines 166-181)
over the combined message/stdout/stderr text. -/
def containsNothingToCommit (out : Str) : Bool :=
  containsSub out (chars "nothing to commit") ||
  containsSub out (chars "nothing added to commit") ||
  containsSub out (chars "no changes added to commit")

/-- Outcome of the external `git commit` subprocess: success, or failure
carrying the combined output text. -/
inductive CommitExec where
  | success
  | failOutput (out : Str)
deriving DecidableEq, Repr

/-- `gitCommit` from git.ts lines 159-184 as a function of the subprocess
outcome: success → `true` (commit created); a failure whose output indicates
"nothing to commit" → `false` (deliberate no-op); any other failure →
rethrown. -/
def gitCommit (exec : CommitExec) : Except Str Bool :=
  match exec with
  | .success => .ok true
  | .failOutput out =>
    if containsNothingToCommit out then .ok false else .error out

/-- The environment one `commitSkillChange` call runs in: whether git is
installed, whether the skills directory exists, whether
`ensureSkillsGitRepo` or `gitAdd` throw, and the commit subprocess
outcome. -/
structure GitEnv where
  installed : Bool
  dirExists : Bool
  ensureFails : Bool
  addFails : Bool
  commitExec : CommitExec
deriving DecidableEq, Repr

/-- What the caller observes of the git step: whether a `[git] Warning` was
printed and whether a commit was recorded. -/
structure CommitOutcome where
  warned : Bool
  committed : Bool
deriving DecidableEq, Repr

/-- `commitSkillChange` from part_006 lines 69-109 with its try/catch
flattened: git missing or skills directory missing → silent skip; a throw
from ensure/stage/commit → caught, warning printed, the command continues;
nothing-to-commit → `gitCommit` returns `false`, no warning.  The function
always returns — it never propagates an exception to its caller. -/
def commitSkillChange (env : GitEnv) : CommitOutcome :=
  if !env.installed then ⟨false, false⟩
  else if !env.dirExists then ⟨false, false⟩
  else if env.ensureFails then ⟨true, false⟩
  else if env.addFails then ⟨true, false⟩
  else
    match gitCommit env.commitExec with
    | .ok b => ⟨false, b⟩
    | .error _ => ⟨true, false⟩

/-- A mutating command's tail: the primary file mutation is applied before
`commitSkillChange`, which cannot touch the file tree and cannot throw, so
the mutation's effect is unconditional. -/
def runMutatingTail (fs : FS) (mutate : FS → FS) (env : GitEnv) :
    FS × CommitOutcome :=
  (mutate fs, commitSkillChange env)

/-- Counterexample to C3: when the external executable is missing
(`installed = false`) the file mutation still lands but `commitSkillChange`
silently skips — `warned = false` — contradicting the claim that a warning
is surfaced in that degraded case (the source comments "Silently skip if git
not installed - not an error"). -/
theorem claim3_counterexample :
    (runMutatingTail [(chars "a", chars "x")]
        (fun fs => fs ++ [(chars "b", chars "y")])
        ⟨false, true, false, false, .success⟩).1 =
      [(chars "a", chars "x"), (chars "b", chars "y")] ∧
    commitSkillChange ⟨false, true, false, false, .success⟩ =
      ⟨false, false⟩ := ⟨rfl, rfl⟩

/-- Amended C3: the primary mutation always lands regardless of the git
step's outcome; a missing executable or missing skills directory is a
silent skip (no warning, no commit); a real init/stage/commit failure warns
and records no commit; a "nothing to commit" outcome is a deliberate no-op
(no commit, no warning, no error). -/
theorem claim3_degraded_never_aborts_amended :
    ∀ (fs : FS) (mutate : FS → FS) (env : GitEnv),
      (runMutatingTail fs mutate env).1 = mutate fs ∧
      ((env.installed = false ∨ env.dirExists = false) →
        commitSkillChange env = ⟨false, false⟩) ∧
      (env.installed = true → env.dirExists = true →
        (env.ensureFails = true ∨ env.addFails = true ∨
          (∃ out, env.commitExec = .failOutput out ∧
            containsNothingToCommit out = false)) →
        (commitSkillChange env).warned = true ∧
        (commitSkillChange env).committed = false) ∧
      (∀ out, env.installed = true → env.dirExists = true →
        env.ensureFails = false → env.addFails = false →
        env.commitExec = .failOutput out →
        containsNothingToCommit out = true →
        commitSkillChange env = ⟨false, false⟩) := by
  intro fs mutate env
  refine ⟨rfl, ?_, ?_, ?_⟩
  · intro h
    rcases h with h | h
    · simp [commitSkillChange, h]
    · cases hi : env.installed <;> simp [commitSkillChange, h, hi]
  · intro hi hd hor
    rcases hor with h | h | ⟨out, hexec, hnc⟩
    · simp [commitSkillChange, hi, hd, h]
    · cases he : env.ensureFails <;>
        simp [commitSkillChange, hi, hd, he, h]
    · cases he : env.ensureFails <;> cases ha : env.addFails <;>
        simp [commitSkillChange, gitCommit, hi, hd, he, ha, hexec, hnc]
  · intro out hi hd he ha hexec hnc
    simp [commitSkillChange, gitCommit, hi, hd, he, ha, hexec, hnc]

/-- Witness for the amended C3: a concrete ensure-failure environment warns
without aborting, and a concrete "nothing to commit" output is a silent
no-op. -/
theorem claim3_witness :
    (runMutatingTail [] (fun fs => fs ++ [(chars "s", chars "c")])
        ⟨true, true, true, false, .success⟩).1 = [(chars "s", chars "c")] ∧
    (commitSkillChange ⟨true, true, true, false, .success⟩).warned = true ∧
    commitSkillChange
      ⟨true, true, false, false,
        .failOutput (chars "nothing to commit, working tree clean")⟩ =
      ⟨false, false⟩ := by
  refine ⟨(claim3_degraded_never_aborts_amended []
      (fun fs => fs ++ [(chars "s", chars "c")])
      ⟨true, true, true, false, .success⟩).1, ?_, ?_⟩
  · exact ((claim3_degraded_never_aborts_amended []
      (fun fs => fs ++ [(chars "s", chars "c")])
      ⟨true, true, true, false, .success⟩).2.2.1 rfl rfl (Or.inl rfl)).1
  · exact (claim3_degraded_never_aborts_amended [] id
      ⟨true, true, false, false,
        .failOutput (chars "nothing to commit, working tree clean")⟩).2.2.2
      (chars "nothing to commit, working tree clean") rfl rfl rfl rfl rfl (by rfl)

/-! ## Local skill listing (src/unnamed/part_003, listLocalSkills) -/

/-- The name/description fields extracted from a manifest's YAML
frontmatter.  Absent or unparsable frontmatter (which `extractFrontmatter`
tolerates) is `⟨none, none⟩`; the YAML parser itself is an external
collaborator. -/
structure Frontmatter where
  fmName : Option Str
  fmDescription : Option Str
deriving DecidableEq, Repr

/-- One `readdir` entry of the skills directory.  `manifest = none` models a
missing or unreadable `SKILL.md` (`readFile` throws and `parseLocalSkill`
returns null); `some fm` a readable one with extracted frontmatter `fm`. -/
structure DirEntry where
  name : Str
  isDir : Bool
  manifest : Option Frontmatter
deriving DecidableEq, Repr

/-- The `LocalSkill` record of part_003. -/
structure LocalSkill where
  name : Str
  displayName : Str
  description : Str
  path : Str
deriving DecidableEq, Repr

/-- `parseLocalSkill` from part_003 lines 42-74: `none` when the manifest is
unreadable; otherwise folder name as identity, frontmatter name/description
with the folder-name / "No description" fallbacks. -/
def parseLocalSkill (skillDir : Str) (name : Str) (manifest : Option Frontmatter) :
    Option LocalSkill :=
  match manifest with
  | none => none
  | some fm =>
    some ⟨name, fm.fmName.getD name,
      fm.fmDescription.getD (chars "No description"), skillDir⟩

/-- Lexicographic (code-point) order on strings, the model of the
`localeCompare` comparator. -/
def strLe : Str → Str → Bool
  | [], _ => true
  | _ :: _, [] => false
  | a :: as, b :: bs => if a < b then true else if a = b then strLe as bs else false

theorem strLe_cons_iff (a b : Char) (as bs : Str) :
    strLe (a :: as) (b :: bs) = true ↔ a < b ∨ (a = b ∧ strLe as bs = true) := by
  simp only [strLe]
  split_ifs with h1 h2
  · simp [h1]
  · simp [h1, h2]
  · simp [h1, h2]

theorem strLe_total : ∀ (x y : Str), (strLe x y || strLe y x) = true
  | [], y => by simp [strLe]
  | x :: xs, [] => by simp [strLe]
  | a :: as, b :: bs => by
    rcases lt_trichotomy a b with h | h | h
    · rw [Bool.or_eq_true, strLe_cons_iff]
      exact Or.inl (Or.inl h)
    · subst h
      rw [Bool.or_eq_true, strLe_cons_iff, strLe_cons_iff]
      rcases Bool.or_eq_true_iff.mp (strLe_total as bs) with h2 | h2
      · exact Or.inl (Or.inr ⟨rfl, h2⟩)
      · exact Or.inr (Or.inr ⟨rfl, h2⟩)
    · rw [Bool.or_eq_true, strLe_cons_iff, strLe_cons_iff]
      exact Or.inr (Or.inl h)

theorem strLe_trans : ∀ (x y z : Str),
    strLe x y = true → strLe y z = true → strLe x z = true
  | [], _, _, _, _ => rfl
  | _ :: _, [], _, h1, _ => by simp [strLe] at h1
  | _ :: _, _ :: _, [], _, h2 => by simp [strLe] at h2
  | a :: as, b :: bs, c :: cs, h1, h2 => by
    rw [strLe_cons_iff] at h1 h2 ⊢
    rcases h1 with h1 | ⟨rfl, h1⟩
    · rcases h2 with h2 | ⟨rfl, h2⟩
      · exact Or.inl (lt_trans h1 h2)
      · exact Or.inl h1
    · rcases h2 with h2 | ⟨rfl, h2⟩
      · exact Or.inl h2
      · exact Or.inr ⟨rfl, strLe_trans as bs cs h1 h2⟩

/-- The per-entry step of `listLocalSkills`' loop: skip non-directories,
skip hidden directories, otherwise `parseLocalSkill` (silently yielding
nothing when the manifest is unreadable). -/
def listEntryRecord (skillsDir : Str) (e : DirEntry) : Option LocalSkill :=
  if e.isDir then
    if e.name.head? = some '.' then none
    else parseLocalSkill (joinPath skillsDir e.name) e.name e.manifest
  else none

/-- `listLocalSkills` from part_003 lines 79-113: collect the records of the
qualifying entries, then sort ascending by folder name. -/
def listLocalSkills (skillsDir : Str) (entries : List DirEntry) :
    List LocalSkill :=
  (entries.filterMap (listEntryRecord skillsDir)).mergeSort
    (fun a b => strLe a.name b.name)

theorem listEntryRecord_eq_some (skillsDir : Str) (e : DirEntry) (r : LocalSkill) :
    listEntryRecord skillsDir e = some r ↔
      e.isDir = true ∧ e.name.head? ≠ some '.' ∧
        parseLocalSkill (joinPath skillsDir e.name) e.name e.manifest = some r := by
  unfold listEntryRecord
  cases hd : e.isDir
  · simp
  · by_cases hh : e.name.head? = some '.' <;> simp [hh]

theorem parseLocalSkill_name (p n : Str) (m : Option Frontmatter)
    (r : LocalSkill) (h : parseLocalSkill p n m = some r) :
    r.name = n ∧ m ≠ none := by
  match m with
  | none => cases h
  | some fm =>
    injection h with h2
    rw [← h2]
    exact ⟨rfl, by simp⟩

/-- Claim C10: `listLocalSkills` returns a record for exactly those
non-hidden top-level directories whose manifest is readable (unreadable ones
are silently omitted), sorted ascending by folder name. -/
theorem claim10_list_local_skills :
    ∀ (skillsDir : Str) (entries : List DirEntry),
      (∀ r, r ∈ listLocalSkills skillsDir entries ↔
        ∃ e ∈ entries, e.isDir = true ∧ e.name.head? ≠ some '.' ∧
          parseLocalSkill (joinPath skillsDir e.name) e.name e.manifest =
            some r) ∧
      (listLocalSkills skillsDir entries).Pairwise
        (fun a b => strLe a.name b.name = true) ∧
      (entries.Pairwise (fun e1 e2 => e1.name ≠ e2.name) →
        ∀ e ∈ entries, e.manifest = none →
          ∀ r ∈ listLocalSkills skillsDir entries, r.name ≠ e.name) := by
  intro skillsDir entries
  have hmem : ∀ r, r ∈ listLocalSkills skillsDir entries ↔
      ∃ e ∈ entries, e.isDir = true ∧ e.name.head? ≠ some '.' ∧
        parseLocalSkill (joinPath skillsDir e.name) e.name e.manifest = some r := by
    intro r
    unfold listLocalSkills
    rw [(List.mergeSort_perm _ _).mem_iff, List.mem_filterMap]
    constructor
    · rintro ⟨e, he, hrec⟩
      exact ⟨e, he, (listEntryRecord_eq_some skillsDir e r).mp hrec⟩
    · rintro ⟨e, he, hconds⟩
      exact ⟨e, he, (listEntryRecord_eq_some skillsDir e r).mpr hconds⟩
  refine ⟨hmem, ?_, ?_⟩
  · exact List.sorted_mergeSort
      (fun a b c hab hbc => strLe_trans a.name b.name c.name hab hbc)
      (fun a b => strLe_total a.name b.name) _
  · intro hdist e he hnone r hr
    obtain ⟨e2, he2, -, -, hparse⟩ := (hmem r).mp hr
    obtain ⟨hname, hm⟩ := parseLocalSkill_name _ _ _ _ hparse
    intro heq
    have hne : e2 = e := by
      by_contra hne2
      exact (hdist.forall (fun a b h => h.symm) he2 he hne2) (by rw [← hname, heq])
    rw [hne] at hm
    exact hm hnone

/-- Witness for C10 on a concrete directory listing: among a hidden
directory, a plain file, a directory without a readable manifest and two
proper skills, the pdf skill is listed and its name differs from the
manifest-less directory's name. -/
theorem claim10_witness :
    (⟨chars "pdf", chars "pdf", chars "No description",
        joinPath (chars "/skills") (chars "pdf")⟩ : LocalSkill) ∈
      listLocalSkills (chars "/skills")
        [⟨chars "xlsx", true, some ⟨none, none⟩⟩,
         ⟨chars ".git", true, some ⟨none, none⟩⟩,
         ⟨chars "notes.txt", false, none⟩,
         ⟨chars "broken", true, none⟩,
         ⟨chars "pdf", true, some ⟨none, none⟩⟩] ∧
    (⟨chars "pdf", chars "pdf", chars "No description",
        joinPath (chars "/skills") (chars "pdf")⟩ : LocalSkill).name ≠
      (⟨chars "broken", true, none⟩ : DirEntry).name := by
  have h1 : (⟨chars "pdf", chars "pdf", chars "No description",
      joinPath (chars "/skills") (chars "pdf")⟩ : LocalSkill) ∈
      listLocalSkills (chars "/skills")
        [⟨chars "xlsx", true, some ⟨none, none⟩⟩,
         ⟨chars ".git", true, some ⟨none, none⟩⟩,
         ⟨chars "notes.txt", false, none⟩,
         ⟨chars "broken", true, none⟩,
         ⟨chars "pdf", true, some ⟨none, none⟩⟩] := by
    apply ((claim10_list_local_skills (chars "/skills") _).1 _).mpr
    exact ⟨⟨chars "pdf", true, some ⟨none, none⟩⟩, by simp, rfl, by decide, rfl⟩
  refine ⟨h1, ?_⟩
  exact (claim10_list_local_skills (chars "/skills") _).2.2 (by decide)
    ⟨chars "broken", true, none⟩ (by simp) rfl _ h1
